import Mathlib

/-!
Shallow embedding of `own-db` (src/chapters/ch1.rs and ch2.rs).

Rust strings are modelled as lists of byte values (`Bytes`); the SHA-1
digest and the `String::from_utf8_lossy` conversion used by the log codec
are implemented in full so that every definition is executable.
-/

set_option maxRecDepth 100000

namespace OwnDb

/-- Rust `&str` / `String` contents, as a list of byte values (each < 256). -/
abbrev Bytes := List Nat

/-- Truncation to a 32-bit word, used wherever Rust `u32` arithmetic wraps. -/
def w32 (n : Nat) : Nat := n % 4294967296

/-- 32-bit left rotation of a word. -/
def rotl (k n : Nat) : Nat := w32 (Nat.lor (n <<< k) (n >>> (32 - k)))

/-- Big-endian bytes of `n`, width `k`. -/
def beBytes : Nat → Nat → Bytes
  | 0, _ => []
  | k + 1, n => beBytes k (n / 256) ++ [n % 256]

/-- Big-endian word value of a byte list (used for SHA-1 words and for
`ReadBytesExt::read_u64::<BigEndian>` in `hash_key`). -/
def beWord (bs : Bytes) : Nat := bs.foldl (fun acc b => acc * 256 + b) 0

/-- SHA-1 padding: `0x80`, zeros to 56 mod 64, then the 64-bit bit length. -/
def sha1Pad (msg : Bytes) : Bytes :=
  msg ++ [128] ++ List.replicate ((119 - msg.length % 64) % 64) 0
    ++ beBytes 8 (8 * msg.length)

/-- Split a byte list into `sz`-byte groups; the fuel argument (instantiated
with the list length) only makes the recursion structural. -/
def chunksF (sz : Nat) : Nat → Bytes → List Bytes
  | _, [] => []
  | 0, _ :: _ => []
  | fuel + 1, b :: bs => (b :: bs).take sz :: chunksF sz fuel ((b :: bs).drop sz)

/-- Split a byte list into 64-byte blocks. -/
def chunks64 (bs : Bytes) : List Bytes := chunksF 64 bs.length bs

/-- Split a byte list into 4-byte groups (block words). -/
def chunks4 (bs : Bytes) : List Bytes := chunksF 4 bs.length bs

/-- SHA-1 message-schedule extension: append `k` further words. -/
def extendW (ws : List Nat) : Nat → List Nat
  | 0 => ws
  | k + 1 =>
    let n := ws.length
    let wNew := rotl 1 (Nat.xor (Nat.xor (ws.getD (n - 3) 0) (ws.getD (n - 8) 0))
      (Nat.xor (ws.getD (n - 14) 0) (ws.getD (n - 16) 0)))
    extendW (ws ++ [wNew]) k

/-- SHA-1 round function. -/
def sha1F (i b c d : Nat) : Nat :=
  if i < 20 then Nat.lor (Nat.land b c) (Nat.land (Nat.xor b 4294967295) d)
  else if i < 40 then Nat.xor (Nat.xor b c) d
  else if i < 60 then Nat.lor (Nat.lor (Nat.land b c) (Nat.land b d)) (Nat.land c d)
  else Nat.xor (Nat.xor b c) d

/-- SHA-1 round constants. -/
def sha1K (i : Nat) : Nat :=
  if i < 20 then 1518500249
  else if i < 40 then 1859775393
  else if i < 60 then 2400959708
  else 3395469782

/-- 80 SHA-1 rounds over one block's schedule. -/
def sha1Rounds (w : List Nat) (st : Nat × Nat × Nat × Nat × Nat) :
    Nat × Nat × Nat × Nat × Nat :=
  (List.range 80).foldl
    (fun s i =>
      match s with
      | (a, b, c, d, e) =>
        (w32 (rotl 5 a + sha1F i b c d + e + sha1K i + w.getD i 0), a, rotl 30 b, c, d))
    st

/-- Compress one 64-byte block into the running hash state. -/
def sha1Block (h : Nat × Nat × Nat × Nat × Nat) (block : Bytes) :
    Nat × Nat × Nat × Nat × Nat :=
  let ws := (chunks4 block).map beWord
  let w := extendW ws 64
  match h, sha1Rounds w h with
  | (h0, h1, h2, h3, h4), (a, b, c, d, e) =>
    (w32 (h0 + a), w32 (h1 + b), w32 (h2 + c), w32 (h3 + d), w32 (h4 + e))

/-- SHA-1 digest (20 bytes) of a byte message; models the `sha1` crate's
`Sha1` hasher, where successive `update` calls hash the concatenation. -/
def sha1Bytes (msg : Bytes) : Bytes :=
  match (chunks64 (sha1Pad msg)).foldl sha1Block
      (1732584193, 4023233417, 2562383102, 271733878, 3285377520) with
  | (h0, h1, h2, h3, h4) =>
    beBytes 4 h0 ++ beBytes 4 h1 ++ beBytes 4 h2 ++ beBytes 4 h3 ++ beBytes 4 h4

/-- Is `b` a UTF-8 continuation byte (`0x80..0xBF`)? -/
def isCont (b : Nat) : Bool := 128 ≤ b && b ≤ 191

/-- UTF-8 encoding of U+FFFD, the replacement character. -/
def fffd : Bytes := [239, 191, 189]

/-- Valid second byte of a three-byte sequence led by `b` (`0xE0..0xEF`). -/
def cont2ok3 (b c : Nat) : Bool :=
  if b = 224 then 160 ≤ c && c ≤ 191
  else if b = 237 then 128 ≤ c && c ≤ 159
  else isCont c

/-- Valid second byte of a four-byte sequence led by `b` (`0xF0..0xF4`). -/
def cont2ok4 (b c : Nat) : Bool :=
  if b = 240 then 144 ≤ c && c ≤ 191
  else if b = 244 then 128 ≤ c && c ≤ 143
  else isCont c

/-- Rust `String::from_utf8_lossy`: each maximal ill-formed subsequence is
replaced by one U+FFFD, following the WHATWG / Unicode substitution rule
implemented in Rust's `Utf8Chunks`. The fuel argument (instantiated with the
list length, which bounds the number of steps) makes the recursion
structural. -/
def utf8LossyF : Nat → Bytes → Bytes
  | _, [] => []
  | 0, _ :: _ => []
  | fuel + 1, b :: rest =>
    if b ≤ 127 then b :: utf8LossyF fuel rest
    else if b ≤ 193 then fffd ++ utf8LossyF fuel rest
    else if b ≤ 223 then
      match rest with
      | c :: rest2 =>
        if isCont c then b :: c :: utf8LossyF fuel rest2
        else fffd ++ utf8LossyF fuel (c :: rest2)
      | [] => fffd
    else if b ≤ 239 then
      match rest with
      | c :: rest2 =>
        if cont2ok3 b c then
          match rest2 with
          | d :: rest3 =>
            if isCont d then b :: c :: d :: utf8LossyF fuel rest3
            else fffd ++ utf8LossyF fuel (d :: rest3)
          | [] => fffd
        else fffd ++ utf8LossyF fuel (c :: rest2)
      | [] => fffd
    else if b ≤ 244 then
      match rest with
      | c :: rest2 =>
        if cont2ok4 b c then
          match rest2 with
          | d :: rest3 =>
            if isCont d then
              match rest3 with
              | e :: rest4 =>
                if isCont e then b :: c :: d :: e :: utf8LossyF fuel rest4
                else fffd ++ utf8LossyF fuel (e :: rest4)
              | [] => fffd
            else fffd ++ utf8LossyF fuel (d :: rest3)
          | [] => fffd
        else fffd ++ utf8LossyF fuel (c :: rest2)
      | [] => fffd
    else fffd ++ utf8LossyF fuel rest

/-- `String::from_utf8_lossy` on a byte sequence. -/
def utf8Lossy (bs : Bytes) : Bytes := utf8LossyF bs.length bs

/-- UTF-8 validity of a byte sequence. A sequence is valid exactly when the
lossy conversion leaves it unchanged (the lossy image is always valid, and
valid input passes through untouched), so this is `str::from_utf8(..).is_ok`. -/
def utf8Valid (bs : Bytes) : Bool := utf8Lossy bs == bs

/-- Rust `value.split(' ')` on a string: splits at every space byte, keeping
empty segments (so the result is never the empty list). -/
def splitSpace : Bytes → List Bytes
  | [] => [[]]
  | b :: rest =>
    if b = 32 then [] :: splitSpace rest
    else
      match splitSpace rest with
      | s :: ss => (b :: s) :: ss
      | [] => [[b]]

/-! ## Chapter 1: checksummed log entries (`ch1.rs`) -/

/-- The literal `"SET"`. -/
def strSET : Bytes := [83, 69, 84]

/-- The literal `"DEL"`. -/
def strDEL : Bytes := [68, 69, 76]

/-- `enum LogEntry` from ch1.rs. -/
inductive LogEntry
  | set (key value checksum : Bytes)
  | del (key checksum : Bytes)
deriving DecidableEq

/-- `enum LogEntryCreationError` from ch1.rs. -/
inductive LogEntryCreationError
  | invalidDiscriminant
  | invalidEntryFormat
  | incorrectChecksum
deriving DecidableEq

/-- `impl TryFrom<&str> for LogEntry` (ch1.rs lines 73-134). The incremental
`Sha1::update` calls hash the concatenation of the fields. In the `SET`
branch the source constructs the entry with `value: key.to_owned()`
(ch1.rs line 111), which this embedding reproduces verbatim. -/
def LogEntry.try_from (value : Bytes) : Except LogEntryCreationError LogEntry :=
  match splitSpace value with
  | [] => .error .invalidEntryFormat
  | discriminant :: segs1 =>
    match segs1 with
    | [] => .error .invalidEntryFormat
    | key :: segs2 =>
      if discriminant = strSET then
        match segs2 with
        | [] => .error .invalidEntryFormat
        | v :: segs3 =>
          match segs3 with
          | [] => .error .invalidEntryFormat
          | receivedHash :: _ =>
            if receivedHash = sha1Bytes (discriminant ++ key ++ v) then
              .ok (.set key key receivedHash)
            else .error .incorrectChecksum
      else if discriminant = strDEL then
        match segs2 with
        | [] => .error .invalidEntryFormat
        | receivedHash :: _ =>
          if receivedHash = sha1Bytes (discriminant ++ key) then
            .ok (.del key receivedHash)
          else .error .incorrectChecksum
      else .error .invalidDiscriminant

/-- `LogEntry::create_set` (ch1.rs lines 137-152): the checksum field is
`String::from_utf8_lossy` applied to the raw digest bytes. -/
def LogEntry.create_set (key value : Bytes) : LogEntry :=
  .set key value (utf8Lossy (sha1Bytes (strSET ++ key ++ value)))

/-- `LogEntry::create_delete` (ch1.rs lines 154-166). -/
def LogEntry.create_delete (key : Bytes) : LogEntry :=
  .del key (utf8Lossy (sha1Bytes (strDEL ++ key)))

/-- The line `sync_entry` writes for an entry (ch1.rs lines 270-279):
space-separated fields terminated by a newline. -/
def syncLine : LogEntry → Bytes
  | .set key value checksum =>
      strSET ++ [32] ++ key ++ [32] ++ value ++ [32] ++ checksum ++ [10]
  | .del key checksum => strDEL ++ [32] ++ key ++ [32] ++ checksum ++ [10]

/-- `struct AppendOnlyLogDB`: only the in-memory entry sequence matters for
the embedded operations; the backing file's content is passed explicitly to
`from_path`, and the outcome of `sync_entry`'s IO is passed explicitly to
`set`/`delete`. -/
structure AppendOnlyLogDB where
  entries : List LogEntry
deriving DecidableEq

/-- The result of the `sync_entry` IO call (`io::Result<()>`), supplied as
an oracle; the error payload abstracts `io::Error`. -/
abbrev SyncResult := Except Nat Unit

/-- `AppendOnlyLogDB::set` (ch1.rs lines 222-226): the result of
`sync_entry` is discarded (`let _ = ...`) and the entry is pushed
unconditionally, so the returned store does not depend on `syncResult` and
no error can reach the caller (the Rust function returns `()`). -/
def AppendOnlyLogDB.set (db : AppendOnlyLogDB) (key value : Bytes)
    (_syncResult : SyncResult) : AppendOnlyLogDB :=
  { entries := db.entries ++ [LogEntry.create_set key value] }

/-- `AppendOnlyLogDB::delete` (ch1.rs lines 228-236): a sync error is only
printed, and the entry is pushed unconditionally. -/
def AppendOnlyLogDB.delete (db : AppendOnlyLogDB) (key : Bytes)
    (_syncResult : SyncResult) : AppendOnlyLogDB :=
  { entries := db.entries ++ [LogEntry.create_delete key] }

/-- Does a log entry mention `key` (either variant)? -/
def mentionsKey (key : Bytes) : LogEntry → Bool
  | .set k _ _ => k == key
  | .del k _ => k == key

/-- The value carried by an entry: `Some value` for `Set`, `None` for `Del`
(the `and_then` arm of `get`). -/
def valueOf : LogEntry → Option Bytes
  | .set _ v _ => some v
  | .del _ _ => none

/-- `AppendOnlyLogDB::get` (ch1.rs lines 238-264): scan the entries from
most recent to oldest for the first one mentioning `key`. -/
def AppendOnlyLogDB.get (db : AppendOnlyLogDB) (key : Bytes) : Option Bytes :=
  (db.entries.reverse.find? (mentionsKey key)).bind valueOf

/-- Modelled from the spec: the most recent (highest-index) record
mentioning `key`, against which `get` is compared. -/
def lastMention (entries : List LogEntry) (key : Bytes) : Option LogEntry :=
  entries.foldl (fun acc e => if mentionsKey key e then some e else acc) none

/-- Failures of `from_path` in the embedding: a decode error from
`LogEntry::try_from` (the `AppendOnlyLogDBCreationError::LogEntry` wrapper),
or exhaustion of the step fuel, which models non-termination of the
`while reader.read_line(..).is_ok()` loop. -/
inductive DBFault
  | logEntry (e : LogEntryCreationError)
  | fuelOut
deriving DecidableEq

/-- One `read_line` chunk: the bytes up to and including the first newline
(or up to end of file). -/
def takeLine : Bytes → Bytes
  | [] => []
  | b :: rest => if b = 10 then [10] else b :: takeLine rest

/-- The replay loop of `AppendOnlyLogDB::from_path` (ch1.rs lines 209-214).
`read_line` appends to `line` (the source never clears it) and returns
`Ok(0)` at end of file, so the loop leaves only through an error:
a decode error aborts `from_path`, while a `read_line` UTF-8 error makes
`is_ok()` false and ends the loop with the entries collected so far. -/
def fromPathLoop (file : Bytes) :
    Nat → Nat → Bytes → List LogEntry → Except DBFault (List LogEntry)
  | 0, _, _, _ => .error .fuelOut
  | fuel + 1, pos, line, entries =>
    let chunk := takeLine (file.drop pos)
    if utf8Valid chunk then
      let line' := line ++ chunk
      match LogEntry.try_from line' with
      | .error e => .error (.logEntry e)
      | .ok entry =>
        fromPathLoop file fuel (pos + chunk.length) line' (entries ++ [entry])
    else .ok entries

/-- `AppendOnlyLogDB::from_path` (ch1.rs lines 204-220) on a file with the
given content (a successful `File::open` is assumed). -/
def from_path (fuel : Nat) (file : Bytes) : Except DBFault AppendOnlyLogDB :=
  (fromPathLoop file fuel 0 [] []).map fun es => { entries := es }

/-! ## Chapter 2: hashtable (`ch2.rs`) -/

/-- `struct HashtableEntry`. -/
structure HashtableEntry where
  key : Bytes
  value : Bytes
deriving DecidableEq

/-- `struct Hashtable`: a slot array and the live-entry counter. -/
structure Hashtable where
  inner : List (Option HashtableEntry)
  size : Nat
deriving DecidableEq

/-- `fn hash_key` (ch2.rs lines 35-48): the first 8 digest bytes read as a
big-endian `u64`; `as usize` is the identity on a 64-bit platform. -/
def hash_key (key : Bytes) : Nat := beWord ((sha1Bytes key).take 8)

/-- `Hashtable::with_capacity`. -/
def Hashtable.with_capacity (capacity : Nat) : Hashtable :=
  { inner := List.replicate capacity none, size := 0 }

/-- Panics of the hashtable operations: `% 0` (`hash_key(key) mod capacity`
on a zero-capacity table), the `panic!("out of memory")` after a full probe
cycle, and exhaustion of the rehash-nesting fuel. -/
inductive HtPanic
  | divByZero
  | outOfMemory
  | rehashDepth
deriving DecidableEq

/-- The wrapped probe position `(start_idx + offset) % len` used by
`insert`, `get` and `delete`. -/
def probeIdx (startIdx offset len : Nat) : Nat := (startIdx + offset) % len

/-- The probe loop of `Hashtable::insert` (ch2.rs lines 67-81): the first
offset in `0..len` whose slot is empty. A slot already holding the probed
key is *not* checked for, exactly as in the source. -/
def probeEmpty (inner : List (Option HashtableEntry)) (startIdx : Nat) :
    Option Nat :=
  (List.range inner.length).find? fun o =>
    (inner.getD (probeIdx startIdx o inner.length) none).isNone

/-- The body of `Hashtable::insert` (ch2.rs lines 56-84) up to the
occupancy check; `rehashFn` is the `self.rehash(self.size * 2)` call taken
when `size / len > 0.66`. The `f64` comparison
`(size as f64) / (len as f64) > 0.66` is modelled by the exact rational
comparison `100 * size > 66 * len` (they agree at every capacity small
enough for the `f64` quotient to be exact to within one unit in the last
place of `0.66`). -/
def insertStep (ht : Hashtable) (key value : Bytes)
    (rehashFn : Hashtable → Except HtPanic Hashtable) :
    Except HtPanic Hashtable :=
  let len := ht.inner.length
  if len = 0 then .error .divByZero
  else
    let startIdx := hash_key key % len
    match probeEmpty ht.inner startIdx with
    | none => .error .outOfMemory
    | some o =>
      let ht' : Hashtable :=
        { inner := ht.inner.set (probeIdx startIdx o len) (some ⟨key, value⟩),
          size := ht.size + 1 }
      if 100 * ht'.size > 66 * len then rehashFn ht' else .ok ht'

/-- `Hashtable::rehash` (ch2.rs lines 129-137): reinsert every live entry
into a fresh array of the given capacity, using `ins` for the reinsertion. -/
def rehashWith (ins : Hashtable → Bytes → Bytes → Except HtPanic Hashtable)
    (ht : Hashtable) (newCapacity : Nat) : Except HtPanic Hashtable :=
  (ht.inner.filterMap id).foldlM (fun acc e => ins acc e.key e.value)
    { inner := List.replicate newCapacity none, size := 0 }

/-- `Hashtable::insert` with a bound on the nesting depth of `rehash`
(the source recursion `insert → rehash → insert → ...` is unbounded, but a
nested rehash during reinsertion is unreachable: reinsertion occupancy
stays at most 1/2). -/
def insertF : Nat → Hashtable → Bytes → Bytes → Except HtPanic Hashtable
  | 0, ht, key, value => insertStep ht key value fun _ => .error .rehashDepth
  | fuel + 1, ht, key, value =>
    insertStep ht key value fun ht' =>
      rehashWith (insertF fuel) ht' (2 * ht'.size)

/-- `Hashtable::insert` (rehash-nesting fuel 1 suffices on every reachable
state). -/
def Hashtable.insert (ht : Hashtable) (key value : Bytes) :
    Except HtPanic Hashtable :=
  insertF 1 ht key value

/-- The probe loop of `Hashtable::get` (ch2.rs lines 92-102): stop with the
value on a matching key, stop with `none` on an empty slot, skip other
entries. -/
def getLoop (inner : List (Option HashtableEntry)) (key : Bytes)
    (startIdx len : Nat) : List Nat → Option Bytes
  | [] => none
  | o :: os =>
    match inner.getD (probeIdx startIdx o len) none with
    | some e => if e.key = key then some e.value else getLoop inner key startIdx len os
    | none => none

/-- `Hashtable::get` (ch2.rs lines 86-105). -/
def Hashtable.get (ht : Hashtable) (key : Bytes) :
    Except HtPanic (Option Bytes) :=
  let len := ht.inner.length
  if len = 0 then .error .divByZero
  else .ok (getLoop ht.inner key (hash_key key % len) len (List.range len))

/-- The probe loop of `Hashtable::delete` (ch2.rs lines 113-124): the first
offset whose slot holds the key (empty slots are skipped, not a stopping
condition). -/
def deleteLoop (inner : List (Option HashtableEntry)) (key : Bytes)
    (startIdx len : Nat) : List Nat → Option (Nat × HashtableEntry)
  | [] => none
  | o :: os =>
    match inner.getD (probeIdx startIdx o len) none with
    | some e =>
      if e.key = key then some (probeIdx startIdx o len, e)
      else deleteLoop inner key startIdx len os
    | none => deleteLoop inner key startIdx len os

/-- `Hashtable::delete` (ch2.rs lines 107-127), returning the removed value
and the updated table. `self.size -= 1` underflows only when a matching
slot exists while `size = 0`, which no reachable table exhibits; natural
subtraction is used. -/
def Hashtable.delete (ht : Hashtable) (key : Bytes) :
    Except HtPanic (Option Bytes × Hashtable) :=
  let len := ht.inner.length
  if len = 0 then .error .divByZero
  else
    match deleteLoop ht.inner key (hash_key key % len) len (List.range len) with
    | some (idx, e) =>
      .ok (some e.value, { inner := ht.inner.set idx none, size := ht.size - 1 })
    | none => .ok (none, ht)

/-! ## Chapter 2: sorted array (`ch2.rs`) -/

/-- `struct SortedArrayEntry`. -/
structure SortedArrayEntry where
  key : Bytes
  value : Bytes
deriving DecidableEq

/-- `struct SortedArray`. -/
structure SortedArray where
  inner : List SortedArrayEntry
deriving DecidableEq

/-- Byte-wise lexicographic comparison, Rust's `Ord` on `str`/`[u8]`. -/
def bytesCmp : Bytes → Bytes → Ordering
  | [], [] => .eq
  | [], _ :: _ => .lt
  | _ :: _, [] => .gt
  | a :: as_, b :: bs => if a < b then .lt else if b < a then .gt else bytesCmp as_ bs

/-- The sorted-array loops are run on fuel; exhaustion models
non-termination of the source's `while` loops. -/
inductive SAFault
  | fuelOut
deriving DecidableEq

/-- The binary-search loop of `SortedArray::find_key` (ch2.rs lines
187-195). `self.inner.get(middle).unwrap()` is modelled with `getD`; the
access is in bounds whenever `right ≤ inner.length`, which the entry point
establishes. Note the source narrows with `left = middle` (not
`middle + 1`), which is why the loop can fail to make progress. -/
def findKeyLoop (inner : List SortedArrayEntry) (key : Bytes) :
    Nat → Nat → Nat → Except SAFault (Option Nat)
  | 0, _, _ => .error .fuelOut
  | fuel + 1, left, right =>
    if left < right then
      let middle := (left + right) / 2
      match bytesCmp (inner.getD middle ⟨[], []⟩).key key with
      | .eq => .ok (some middle)
      | .lt => findKeyLoop inner key fuel middle right
      | .gt => findKeyLoop inner key fuel left middle
    else .ok none

/-- `SortedArray::find_key` (ch2.rs lines 183-198). -/
def find_key (fuel : Nat) (arr : SortedArray) (key : Bytes) :
    Except SAFault (Option Nat) :=
  findKeyLoop arr.inner key fuel 0 arr.inner.length

/-- `SortedArray::get` (ch2.rs lines 200-203). -/
def SortedArray.get (fuel : Nat) (arr : SortedArray) (key : Bytes) :
    Except SAFault (Option Bytes) :=
  (find_key fuel arr key).map fun idx =>
    idx.map fun i => (arr.inner.getD i ⟨[], []⟩).value

/-- The `while let` loop of `SortedArray::get_range` (ch2.rs lines
213-217): push the value when `entry.key <= key_to`, and loop — the source
never increments `idx`, so the loop leaves only when `idx` is out of
bounds, i.e. only if it was out of bounds on entry. -/
def getRangeLoop (inner : List SortedArrayEntry) (keyTo : Bytes) :
    Nat → Nat → List Bytes → Except SAFault (List Bytes)
  | 0, _, _ => .error .fuelOut
  | fuel + 1, idx, results =>
    match inner.get? idx with
    | some entry =>
      getRangeLoop inner keyTo fuel idx
        (if bytesCmp entry.key keyTo = .gt then results else results ++ [entry.value])
    | none => .ok results

/-- `SortedArray::get_range` (ch2.rs lines 205-220). -/
def get_range (fuel : Nat) (arr : SortedArray) (keyFrom keyTo : Bytes) :
    Except SAFault (List Bytes) :=
  match find_key fuel arr keyFrom with
  | .error f => .error f
  | .ok none => .ok []
  | .ok (some idx) =>
    if bytesCmp keyFrom keyTo = .gt then .ok []
    else getRangeLoop arr.inner keyTo fuel idx []

/-- The binary-search loop of `SortedArray::insert` (ch2.rs lines 237-248),
threading the `middle` variable that survives the loop and is used as the
insertion position; like `find_key` it narrows with `left = middle`. -/
def insertLoopSA (inner : List SortedArrayEntry) (key value : Bytes) :
    Nat → Nat → Nat → Nat → Except SAFault (List SortedArrayEntry)
  | 0, _, _, _ => .error .fuelOut
  | fuel + 1, left, right, middle =>
    if left < right then
      let middle' := (left + right) / 2
      match bytesCmp (inner.getD middle' ⟨[], []⟩).key key with
      | .eq => .ok (inner.set middle' ⟨key, value⟩)
      | .lt => insertLoopSA inner key value fuel middle' right middle'
      | .gt => insertLoopSA inner key value fuel left middle' middle'
    else .ok (inner.insertIdx middle ⟨key, value⟩)

/-- `SortedArray::insert` (ch2.rs lines 227-251); `middle` starts at
`(0 + len) / 2` as in the source. -/
def SortedArray.insert (fuel : Nat) (arr : SortedArray) (key value : Bytes) :
    Except SAFault SortedArray :=
  (insertLoopSA arr.inner key value fuel 0 arr.inner.length
    (arr.inner.length / 2)).map fun l => { inner := l }

/-! ## Auxiliary definitions used by the statements -/

/-- The log file produced by `set("a", "1")` followed by `delete("a")`:
`SET a 1 <checksum>\nDEL a <checksum>\n` with the checksums the code itself
computes and writes. -/
def c2File : Bytes :=
  syncLine (LogEntry.create_set [97] [49])
    ++ syncLine (LogEntry.create_delete [97])

/-- Number of occupied slots of a slot array. -/
def countSome : List (Option HashtableEntry) → Nat
  | [] => 0
  | none :: rest => countSome rest
  | some _ :: rest => countSome rest + 1

/-- The hashtable's health invariant: `size` counts the occupied slots, the
occupancy bound holds, and the capacity is positive. -/
def HtInv (ht : Hashtable) : Prop :=
  ht.size = countSome ht.inner
    ∧ 100 * ht.size ≤ 66 * ht.inner.length
    ∧ 0 < ht.inner.length

/-- Run a sequence of inserts left to right. -/
def runInserts (ht : Hashtable) (ops : List (Bytes × Bytes)) :
    Except HtPanic Hashtable :=
  ops.foldlM (fun acc kv => acc.insert kv.1 kv.2) ht

/-! ## Theorems -/

/-- The standard SHA-1 test vector for the message `abc`, validating the
digest model. -/
theorem sha1_abc_vector :
    sha1Bytes [97, 98, 99] =
      [169, 153, 62, 54, 71, 6, 129, 106, 186, 62, 37, 113, 120, 80, 194, 108,
       156, 208, 216, 157] := by rfl

/-- C1. The codec round-trip fails on the record `Set("a", "1")`: decoding
the exact line `sync_entry` writes for `create_set("a", "1")` — with or
without its terminating newline — is rejected with `IncorrectChecksum`,
because the stored checksum is the UTF-8-lossy rendering of the digest
while `try_from` compares the received field's bytes against the raw digest
bytes (and even a successful `SET` decode would copy the key into the value
field, ch1.rs line 111). -/
theorem codec_roundtrip_fails :
    LogEntry.try_from (syncLine (LogEntry.create_set [97] [49]))
        = .error .incorrectChecksum
      ∧ LogEntry.try_from ((syncLine (LogEntry.create_set [97] [49])).dropLast)
        = .error .incorrectChecksum :=
  ⟨rfl, rfl⟩

/-- C2. Recovery replay fails: reopening the log file that the store itself
wrote for `set("a","1"); delete("a")` does not succeed — `from_path`
aborts on the first line with `IncorrectChecksum` (the chunk returned by
`read_line` keeps the trailing newline inside the checksum field, and the
stored checksum bytes differ from the raw digest), for every loop fuel. -/
theorem recovery_replay_open_fails :
    ∀ fuel, from_path (fuel + 1) c2File
      = .error (.logEntry .incorrectChecksum) :=
  fun _ => rfl

/-- C4. `set` swallows durable-append failures: when `sync_entry` fails,
the entry is still pushed onto the in-memory sequence (so the state is not
left unchanged), and the store returned is identical to the one returned on
a successful sync — the Rust `set` returns `()`, so no failure can reach
the caller. -/
theorem set_ignores_sync_failure :
    ∀ (db : AppendOnlyLogDB) (key value : Bytes) (e : Nat),
      (db.set key value (.error e)).entries
          = db.entries ++ [LogEntry.create_set key value]
        ∧ db.set key value (.error e) = db.set key value (.ok ()) :=
  fun _ _ _ _ => ⟨rfl, rfl⟩

/-- C9. Opening an empty log file (exactly what `new` produces) never
yields a store: for every fuel the replay loop decodes the empty line
obtained at end of file and fails with `InvalidEntryFormat`. -/
theorem from_path_empty_file_errors :
    ∀ fuel, from_path (fuel + 1) []
      = .error (.logEntry .invalidEntryFormat) :=
  fun _ => rfl

/-- C5. Insert does not overwrite an existing key: after
`insert("a","1"); insert("a","2")` on a fresh capacity-100 table, the probe
loop has stored a second, duplicate entry (size is 2) and `get("a")`
returns the stale first value `"1"`, not `"2"`. -/
theorem hashtable_insert_no_overwrite :
    ∃ h1 h2, (Hashtable.with_capacity 100).insert [97] [49] = .ok h1
      ∧ h1.insert [97] [50] = .ok h2
      ∧ h2.get [97] = .ok (some [49])
      ∧ h2.size = 2 :=
  ⟨_, _, rfl, rfl, rfl, rfl⟩

/-- C10. Every hashtable operation on a zero-capacity table panics with a
division (remainder) by zero at `hash_key(key) % capacity`, while for any
positive capacity the wrapped probe position `(start_idx + offset) % len`
is always strictly below the slot-array length. -/
theorem hashtable_zero_capacity_panics :
    (∀ key value, (Hashtable.with_capacity 0).insert key value
        = .error .divByZero)
      ∧ (∀ key, (Hashtable.with_capacity 0).get key = .error .divByZero)
      ∧ (∀ key, (Hashtable.with_capacity 0).delete key = .error .divByZero)
      ∧ ∀ startIdx offset len, 0 < len → probeIdx startIdx offset len < len :=
  ⟨fun _ _ => rfl, fun _ => rfl, fun _ => rfl,
    fun _ _ _ h => Nat.mod_lt _ h⟩

/-- Witness for C10's positive-capacity conjunct at a concrete probe. -/
theorem hashtable_zero_capacity_panics_witness : probeIdx 7 5 3 < 3 :=
  hashtable_zero_capacity_panics.2.2.2 7 5 3 (by decide)

/-- C7. `get_range` with in-order bounds misses keys: on the array
`[("b","v")]` the range query `get_range("a","c")` returns the empty list
although the key `"b"` lies inside `["a","c"]`, because `find_key` looks
for an entry exactly equal to the lower bound. -/
theorem get_range_misses_inexact_low :
    get_range 10 ⟨[⟨[98], [118]⟩]⟩ [97] [99] = .ok [] := rfl

/-- On the singleton array `[("a","x")]` the `find_key` loop searching for
`"b"` repeats the state `left = 0, right = 1` forever (`Less` sets
`left = middle = 0`), so every fuel is exhausted. -/
theorem findKeyLoop_diverges :
    ∀ fuel, findKeyLoop [⟨[97], [120]⟩] [98] fuel 0 1 = .error .fuelOut := by
  intro fuel
  induction fuel with
  | zero => rfl
  | succ f ih => exact ih

/-- The `insert` binary-search loop diverges on the same input. -/
theorem insertLoopSA_diverges :
    ∀ fuel, insertLoopSA [⟨[97], [120]⟩] [98] [121] fuel 0 1 0
      = .error .fuelOut := by
  intro fuel
  induction fuel with
  | zero => rfl
  | succ f ih => exact ih

/-- The `get_range` scan loop never advances `idx`, so it loops whenever
its start index is in bounds, for any accumulated results. -/
theorem getRangeLoop_diverges :
    ∀ fuel rs, getRangeLoop [⟨[98], [118]⟩] [98] fuel 0 rs
      = .error .fuelOut := by
  intro fuel
  induction fuel with
  | zero => intro rs; rfl
  | succ f ih => intro rs; exact ih _

/-- C8. Termination fails: on the one-entry array `[("a","x")]` the
operations `find_key("b")`, `get("b")` and `insert("b","y")` exhaust every
fuel (the binary search narrows with `left = middle` and repeats its state),
and on `[("b","v")]` the in-range query `get_range("b","b")` exhausts every
fuel (the scan loop never increments its index). -/
theorem sorted_array_ops_diverge :
    (∀ fuel, find_key fuel ⟨[⟨[97], [120]⟩]⟩ [98] = .error .fuelOut)
      ∧ (∀ fuel, SortedArray.get fuel ⟨[⟨[97], [120]⟩]⟩ [98]
          = .error .fuelOut)
      ∧ (∀ fuel, SortedArray.insert fuel ⟨[⟨[97], [120]⟩]⟩ [98] [121]
          = .error .fuelOut)
      ∧ ∀ fuel, get_range fuel ⟨[⟨[98], [118]⟩]⟩ [98] [98]
          = .error .fuelOut := by
  refine ⟨fun fuel => findKeyLoop_diverges fuel, fun fuel => ?_,
    fun fuel => ?_, fun fuel => ?_⟩
  · show (find_key fuel _ _).map _ = _
    rw [show find_key fuel ⟨[⟨[97], [120]⟩]⟩ [98] = .error .fuelOut from
      findKeyLoop_diverges fuel]
    rfl
  · show (insertLoopSA _ [98] [121] fuel 0 1 0).map _ = _
    rw [insertLoopSA_diverges fuel]
    rfl
  · match fuel with
    | 0 => rfl
    | f + 1 => exact getRangeLoop_diverges (f + 1) []

/-- A right fold keeping the last satisfying element equals a search from
the rear of the list. -/
theorem foldl_lastMention (key : Bytes) :
    ∀ (l : List LogEntry) (acc : Option LogEntry),
      l.foldl (fun a e => if mentionsKey key e then some e else a) acc
        = (l.reverse.find? (mentionsKey key)).elim acc some := by
  intro l
  induction l with
  | nil => intro acc; rfl
  | cons a l ih =>
    intro acc
    rw [List.foldl_cons, ih, List.reverse_cons, List.find?_append]
    cases h : l.reverse.find? (mentionsKey key) with
    | some x => simp
    | none =>
      cases hm : mentionsKey key a <;> simp [List.find?, hm]

/-- C3. Last-writer-wins: `get` returns exactly the value of the most
recent (highest-index) record mentioning the key — the `Set` value, or
`None` for a `Del` or when no record mentions the key; in particular after
`set(a,1); set(a,2)` the lookup gives `Some "2"`, and after a further
`delete(a)` it gives `None`. -/
theorem get_last_writer_wins :
    (∀ (db : AppendOnlyLogDB) (key : Bytes),
        db.get key = (lastMention db.entries key).bind valueOf)
      ∧ ((((AppendOnlyLogDB.mk []).set [97] [49] (.ok ())).set [97] [50]
            (.ok ())).get [97] = some [50])
      ∧ (((((AppendOnlyLogDB.mk []).set [97] [49] (.ok ())).set [97] [50]
            (.ok ())).delete [97] (.ok ())).get [97] = none) := by
  refine ⟨fun db key => ?_, rfl, rfl⟩
  show (db.entries.reverse.find? (mentionsKey key)).bind valueOf = _
  rw [show lastMention db.entries key
      = (db.entries.reverse.find? (mentionsKey key)).elim none some from
    foldl_lastMention key db.entries none]
  cases db.entries.reverse.find? (mentionsKey key) <;> rfl

/-- A fresh slot array has no occupied slots. -/
theorem countSome_replicate (n : Nat) :
    countSome (List.replicate n none) = 0 := by
  induction n with
  | zero => rfl
  | succ k ih => simpa [List.replicate, countSome] using ih

/-- A slot array whose positions are all occupied is fully counted. -/
theorem countSome_eq_length_of_all_some :
    ∀ (l : List (Option HashtableEntry)),
      (∀ i, i < l.length → (l.getD i none).isSome = true) →
      countSome l = l.length := by
  intro l
  induction l with
  | nil => intro _; rfl
  | cons x xs ih =>
    intro h
    have hx := h 0 (Nat.succ_pos _)
    cases x with
    | none => simp [List.getD] at hx
    | some e =>
      have : countSome xs = xs.length := by
        refine ih fun i hi => ?_
        simpa [List.getD] using h (i + 1) (Nat.succ_lt_succ hi)
      simp [countSome, this]

/-- Writing an entry into an empty in-bounds slot grows the occupancy count
by one. -/
theorem countSome_set_some :
    ∀ (l : List (Option HashtableEntry)) (i : Nat) (e : HashtableEntry),
      l.getD i none = none → i < l.length →
      countSome (l.set i (some e)) = countSome l + 1 := by
  intro l
  induction l with
  | nil => intro i e _ hi; simp at hi
  | cons x xs ih =>
    intro i e hslot hi
    cases i with
    | zero =>
      have hx : x = none := by simpa [List.getD] using hslot
      subst hx
      simp [countSome]
    | succ j =>
      have hs : xs.getD j none = none := by simpa [List.getD] using hslot
      have hj : j < xs.length := by simpa using hi
      cases x <;> simp [countSome, ih j e hs hj]

/-- Flattening the slot array lists exactly the occupied slots. -/
theorem length_filterMap_id :
    ∀ l : List (Option HashtableEntry),
      (l.filterMap id).length = countSome l := by
  intro l
  induction l with
  | nil => rfl
  | cons x xs ih => cases x <;> simp [countSome, List.filterMap_cons, ih]

/-- Linear probing visits every position: any target index below `len` is
reached by some offset below `len`. -/
theorem probe_covers (start len i : Nat) (hlen : 0 < len) (hi : i < len) :
    ∃ o, o < len ∧ probeIdx start o len = i := by
  refine ⟨(len + i - start % len) % len, Nat.mod_lt _ hlen, ?_⟩
  have hs : start % len < len := Nat.mod_lt _ hlen
  calc (start + (len + i - start % len) % len) % len
      = (start + (len + i - start % len)) % len := Nat.add_mod_mod ..
    _ = (start % len + (len + i - start % len)) % len := (Nat.mod_add_mod ..).symm
    _ = (len + i) % len := by
        have : start % len + (len + i - start % len) = len + i := by omega
        rw [this]
    _ = i % len := Nat.add_mod_left ..
    _ = i := Nat.mod_eq_of_lt hi

/-- If some slot is free, the probe loop of `insert` finds a free slot. -/
theorem probeEmpty_isSome (inner : List (Option HashtableEntry))
    (start : Nat) (h : countSome inner < inner.length) :
    ∃ o, probeEmpty inner start = some o := by
  cases hp : probeEmpty inner start with
  | some o => exact ⟨o, rfl⟩
  | none =>
    exfalso
    have hall := List.find?_eq_none.mp hp
    have hlen : 0 < inner.length := Nat.lt_of_le_of_lt (Nat.zero_le _) h
    have hsome : ∀ i, i < inner.length → (inner.getD i none).isSome = true := by
      intro i hi
      obtain ⟨o, ho, hoi⟩ := probe_covers start inner.length i hlen hi
      have hno := hall o (List.mem_range.mpr ho)
      rw [hoi] at hno
      cases hx : inner.getD i none with
      | none => rw [hx] at hno; simp at hno
      | some e => rfl
    have := countSome_eq_length_of_all_some inner hsome
    omega

/-- The offset returned by the probe loop points at an empty slot. -/
theorem probeEmpty_spec (inner : List (Option HashtableEntry))
    (start o : Nat) (h : probeEmpty inner start = some o) :
    inner.getD (probeIdx start o inner.length) none = none := by
  have hp := List.find?_some h
  cases hx : inner.getD (probeIdx start o inner.length) none with
  | none => rfl
  | some e => rw [hx] at hp; simp at hp

/-- One `insert` step under a consistent size counter: the probe finds a
free slot, the placed table `ht'` has one more entry, and the result is
`ht'` directly or the rehash continuation applied to it, according to the
occupancy check. -/
theorem insertStep_spec (ht : Hashtable) (key value : Bytes)
    (rfn : Hashtable → Except HtPanic Hashtable)
    (hcnt : ht.size = countSome ht.inner)
    (hlt : countSome ht.inner < ht.inner.length) :
    ∃ ht', insertStep ht key value rfn
        = (if 100 * (ht.size + 1) > 66 * ht.inner.length then rfn ht'
           else .ok ht')
      ∧ ht'.size = ht.size + 1
      ∧ ht'.size = countSome ht'.inner
      ∧ ht'.inner.length = ht.inner.length := by
  obtain ⟨o, ho⟩ := probeEmpty_isSome ht.inner (hash_key key % ht.inner.length) hlt
  have hlen : 0 < ht.inner.length := Nat.lt_of_le_of_lt (Nat.zero_le _) hlt
  have hidx : probeIdx (hash_key key % ht.inner.length) o ht.inner.length
      < ht.inner.length := Nat.mod_lt _ hlen
  have hslot := probeEmpty_spec ht.inner (hash_key key % ht.inner.length) o ho
  refine ⟨Hashtable.mk (ht.inner.set
      (probeIdx (hash_key key % ht.inner.length) o ht.inner.length)
      (some ⟨key, value⟩)) (ht.size + 1), ?_, rfl, ?_, ?_⟩
  · simp only [insertStep]
    rw [if_neg (by omega : ¬ ht.inner.length = 0), ho]
  · show ht.size + 1 = countSome (ht.inner.set _ (some ⟨key, value⟩))
    rw [countSome_set_some ht.inner _ _ hslot hidx, hcnt]
  · exact List.length_set ..

/-- Reinserting entries during a rehash never re-triggers the occupancy
check when the whole batch fits under the threshold, so fuel-0 inserts
suffice and the resulting table stays consistent and within bound. -/
theorem rehash_fold (L : Nat) :
    ∀ (es : List HashtableEntry) (acc : Hashtable),
      acc.size = countSome acc.inner → acc.inner.length = L →
      100 * (acc.size + es.length) ≤ 66 * L →
      ∃ ht', es.foldlM (fun a e => insertF 0 a e.key e.value) acc = .ok ht'
        ∧ ht'.size = countSome ht'.inner
        ∧ ht'.inner.length = L
        ∧ 100 * ht'.size ≤ 66 * L := by
  intro es
  induction es with
  | nil =>
    intro acc h1 h2 h3
    exact ⟨acc, rfl, h1, h2, by simpa using h3⟩
  | cons e es ih =>
    intro acc h1 h2 h3
    have hlt : countSome acc.inner < acc.inner.length := by
      rw [← h1, h2]
      simp only [List.length_cons] at h3
      omega
    obtain ⟨ht', heq, hsz, hcnt, hlen⟩ :=
      insertStep_spec acc e.key e.value (fun _ => .error .rehashDepth) h1 hlt
    have hcond : ¬ (100 * (acc.size + 1) > 66 * acc.inner.length) := by
      rw [h2]
      simp only [List.length_cons] at h3
      omega
    rw [if_neg hcond] at heq
    have hstep : insertF 0 acc e.key e.value = .ok ht' := heq
    obtain ⟨ht'', hfold, f1, f2, f3⟩ := ih ht' hcnt (hlen.trans h2)
      (by simp only [List.length_cons] at h3; omega)
    refine ⟨ht'', ?_, f1, f2, f3⟩
    rw [List.foldlM_cons, hstep]
    simpa using hfold

/-- `insert` (with rehash fuel 1) succeeds on every healthy table and
preserves the invariant: the occupancy check either passes, or the rehash
into capacity `2 * size` runs to completion at occupancy 1/2. -/
theorem insert_preserves_inv (ht : Hashtable) (key value : Bytes)
    (h : HtInv ht) :
    ∃ ht', ht.insert key value = .ok ht' ∧ HtInv ht' := by
  obtain ⟨h1, h2, h3⟩ := h
  have hlt : countSome ht.inner < ht.inner.length := by omega
  obtain ⟨ht', heq, hsz, hcnt, hlen⟩ := insertStep_spec ht key value
    (fun a => rehashWith (insertF 0) a (2 * a.size)) h1 hlt
  by_cases hc : 100 * (ht.size + 1) > 66 * ht.inner.length
  · rw [if_pos hc] at heq
    have hes : (ht'.inner.filterMap id).length = countSome ht'.inner :=
      length_filterMap_id _
    obtain ⟨ht'', hfold, f1, f2, f3⟩ := rehash_fold (2 * ht'.size)
      (ht'.inner.filterMap id) ⟨List.replicate (2 * ht'.size) none, 0⟩
      (by simp [countSome_replicate])
      (by simp)
      (by
        show 100 * (0 + (ht'.inner.filterMap id).length) ≤ 66 * (2 * ht'.size)
        rw [hes, ← hcnt]
        omega)
    refine ⟨ht'', ?_, f1, by omega, by rw [f2]; omega⟩
    show insertF 1 ht key value = .ok ht''
    calc insertF 1 ht key value
        = rehashWith (insertF 0) ht' (2 * ht'.size) := heq
      _ = .ok ht'' := hfold
  · rw [if_neg hc] at heq
    exact ⟨ht', heq, hcnt, by omega, by rw [hlen]; exact h3⟩

/-- Any sequence of inserts from a healthy table succeeds and ends healthy. -/
theorem runInserts_inv :
    ∀ (ops : List (Bytes × Bytes)) (ht : Hashtable), HtInv ht →
      ∃ ht', runInserts ht ops = .ok ht' ∧ HtInv ht' := by
  intro ops
  induction ops with
  | nil => intro ht h; exact ⟨ht, rfl, h⟩
  | cons kv ops ih =>
    intro ht h
    obtain ⟨ht', heq, hinv⟩ := insert_preserves_inv ht kv.1 kv.2 h
    obtain ⟨ht'', hfold, hinv'⟩ := ih ht' hinv
    refine ⟨ht'', ?_, hinv'⟩
    show (kv :: ops).foldlM (fun acc kv => acc.insert kv.1 kv.2) ht = .ok ht''
    rw [List.foldlM_cons, heq]
    simpa using hfold

/-- C6. Occupancy bound: starting from any positive capacity, every
sequence of inserts (no deletes) returns normally and leaves
`size / capacity ≤ 0.66` — i.e. `100 * size ≤ 66 * capacity` — after every
insert (each prefix of the sequence is itself such a run). A violating
insert instead rehashes into a fresh array of capacity `2 * size`. -/
theorem hashtable_occupancy_bound (capacity : Nat) (hc : 0 < capacity)
    (ops : List (Bytes × Bytes)) :
    ∃ ht, runInserts (Hashtable.with_capacity capacity) ops = .ok ht
      ∧ 100 * ht.size ≤ 66 * ht.inner.length := by
  have h0 : HtInv (Hashtable.with_capacity capacity) := by
    refine ⟨(countSome_replicate capacity).symm, ?_, ?_⟩
    · show 100 * 0 ≤ 66 * (List.replicate capacity (none : Option HashtableEntry)).length
      simp
    · show 0 < (List.replicate capacity (none : Option HashtableEntry)).length
      simpa using hc
  obtain ⟨ht, heq, hinv⟩ := runInserts_inv ops _ h0
  exact ⟨ht, heq, hinv.2.1⟩

/-- Witness for C6 at capacity 1 with a single insert (which rehashes to
capacity 2). -/
theorem hashtable_occupancy_bound_witness :
    ∃ ht, runInserts (Hashtable.with_capacity 1) [([97], [49])] = .ok ht
      ∧ 100 * ht.size ≤ 66 * ht.inner.length :=
  hashtable_occupancy_bound 1 (by decide) [([97], [49])]

end OwnDb
